/-
Verification of the hunk-patching core of _TokenizingPATCHER (app_v5.0.py).

The Python core consists of:
  * class StructuredLine   — line tokenizer (indent / content / trailing),
  * detect_newline         — CRLF vs LF detection,
  * split_lines_preserve   — buffer splitting,
  * locate_hunk            — strict / floating window search,
  * check_overlaps         — sort-by-start adjacent-pair overlap test,
  * apply_patch_text       — resolution, validation and splicing pipeline.

Text is modelled as `List Char`.  Python dict-shaped patch input is modelled by
`PatchObj` / `RawHunk`, where a missing key or a non-string value is a `none` /
`PyVal.other` field, exactly the cases `isinstance(x, str)` rejects.
-/
import Mathlib

namespace TokenizingPatcher

/-- Space or tab: the only characters the tokenizer's regex `[ \t]*` strips. -/
def isSpaceTab (c : Char) : Bool := c = ' ' || c = '\t'

/-- The character set stripped by Python's `str.strip()` (CPython
`Py_UNICODE_ISSPACE`): `0x09`–`0x0D`, space, `0x1C`–`0x1F`, NEL, NBSP and the
Unicode space separators. -/
def pyIsSpace (c : Char) : Bool :=
  (0x09 ≤ c.toNat && c.toNat ≤ 0x0D) || c = ' ' ||
  (0x1C ≤ c.toNat && c.toNat ≤ 0x1F) || c.toNat = 0x85 || c.toNat = 0xA0 ||
  c.toNat = 0x1680 || (0x2000 ≤ c.toNat && c.toNat ≤ 0x200A) ||
  c.toNat = 0x2028 || c.toNat = 0x2029 || c.toNat = 0x202F || c.toNat = 0x205F ||
  c.toNat = 0x3000

/-- Python `s.strip()`: drop the maximal whitespace prefix and suffix. -/
def pyStrip (l : List Char) : List Char :=
  ((l.dropWhile pyIsSpace).reverse.dropWhile pyIsSpace).reverse

/-- `StructuredLine`: one physical line split as
`(^[ \t]*)(.*?)([ \t]*$)` — indent / content / trailing. -/
structure StructuredLine where
  indent : List Char
  content : List Char
  trailing : List Char
deriving DecidableEq, Repr

/-- The successful-match decomposition of `(^[ \t]*)(.*?)([ \t]*$)` on a
newline-free string: leading space/tab run becomes `indent`, the trailing
space/tab run of the remainder becomes `trailing`, the middle is `content`.
An all-whitespace line puts everything in `indent` (the greedy leading
group). -/
def splitWs (line : List Char) : StructuredLine :=
  let indent := line.takeWhile isSpaceTab
  let rest := line.dropWhile isSpaceTab
  { indent := indent
    content := (rest.reverse.dropWhile isSpaceTab).reverse
    trailing := (rest.reverse.takeWhile isSpaceTab).reverse }

/-- The tokenizer (`StructuredLine.__init__`), with the regex's exact
treatment of newlines: without MULTILINE, `$` also matches just before a
single line-final `\n`, so such a line is decomposed as if the `\n` were
absent — no group captures it and reconstruction drops it; a `\n` anywhere
else (embedded, or more than one) makes the regex fail as a whole, and the
`else` branch stores the entire line in `content` with empty
`indent`/`trailing`.  (Lines containing `\n` are reachable: a CRLF buffer may
contain lone `\n` characters inside its CRLF-split pieces.) -/
def StructuredLine.ofLine (line : List Char) : StructuredLine :=
  if line.getLast? = some '\n' ∧ '\n' ∉ line.dropLast then
    splitWs line.dropLast
  else if '\n' ∈ line then ⟨[], line, []⟩
  else splitWs line

/-- `StructuredLine.reconstruct`: `indent + content + trailing`. -/
def StructuredLine.reconstruct (l : StructuredLine) : List Char :=
  l.indent ++ l.content ++ l.trailing

/-- The default line used for out-of-range `getD` reads (never produced by
in-bounds accesses). -/
def emptyLine : StructuredLine := ⟨[], [], []⟩

/-- Does the text contain the two-character sequence `\r\n` anywhere? -/
def hasCRLF : List Char → Bool
  | [] => false
  | [_] => false
  | c :: d :: rest => (c = '\r' && d = '\n') || hasCRLF (d :: rest)

/-- `detect_newline`: `"\r\n" if "\r\n" in text else "\n"`. -/
def detect_newline (text : List Char) : List Char :=
  if hasCRLF text then ['\r', '\n'] else ['\n']

/-- Prepend a character to the first piece of a split result
(the non-separator step of a left-to-right scanning split). -/
def consHead (c : Char) : List (List Char) → List (List Char)
  | [] => [[c]]
  | h :: t => (c :: h) :: t

/-- `text.split("\n")`: left-to-right split on LF. -/
def splitLF : List Char → List (List Char)
  | [] => [[]]
  | c :: rest =>
    if c = '\n' then [] :: splitLF rest
    else consHead c (splitLF rest)

/-- `text.split("\r\n")`: left-to-right split on the two-character CRLF;
a lone `\r` or lone `\n` is ordinary text. -/
def splitCRLF : List Char → List (List Char)
  | [] => [[]]
  | [c] => [[c]]
  | c :: d :: rest =>
    if c = '\r' && d = '\n' then [] :: splitCRLF rest
    else consHead c (splitCRLF (d :: rest))

/-- `re.split(r"\r\n|\n", blk)`: at each position the two-character CRLF
alternative is preferred, a bare LF also separates, a lone `\r` does not. -/
def splitAnyNL : List Char → List (List Char)
  | [] => [[]]
  | [c] => if c = '\n' then [[], []] else [[c]]
  | c :: d :: rest =>
    if c = '\r' && d = '\n' then [] :: splitAnyNL rest
    else if c = '\n' then [] :: splitAnyNL (d :: rest)
    else consHead c (splitAnyNL (d :: rest))

/-- `split_lines_preserve`: empty text is the single empty line, otherwise the
text is split on the buffer's detected newline (only ever `"\r\n"` or `"\n"`). -/
def split_lines_preserve (text : List Char) (newline : List Char) :
    List (List Char) :=
  if text = [] then [[]]
  else if newline = ['\r', '\n'] then splitCRLF text else splitLF text

/-- Python `newline.join(pieces)`. -/
def joinWith (sep : List Char) : List (List Char) → List Char
  | [] => []
  | [x] => x
  | x :: y :: rest => x ++ sep ++ joinWith sep (y :: rest)

/-- One pairwise line comparison of `locate_hunk`: contents directly in strict
mode, contents after `str.strip()` in floating mode. -/
def contentMatches (floating : Bool) (f s : StructuredLine) : Bool :=
  if floating then decide (pyStrip f.content = pyStrip s.content)
  else decide (f.content = s.content)

/-- Does the window of `search_lines` starting at `start` match? -/
def windowMatches (file_lines search_lines : List StructuredLine)
    (floating : Bool) (start : Nat) : Bool :=
  (List.range search_lines.length).all fun offset =>
    contentMatches floating (file_lines.getD (start + offset) emptyLine)
      (search_lines.getD offset emptyLine)

/-- `locate_hunk`: all window start indices at which `search_lines` matches.
Empty `search_lines` or a window longer than the buffer yields no matches. -/
def locate_hunk (file_lines search_lines : List StructuredLine)
    (floating : Bool) : List Nat :=
  if search_lines.length = 0 then []
  else if file_lines.length < search_lines.length then []
  else
    (List.range (file_lines.length - search_lines.length + 1)).filter fun start =>
      windowMatches file_lines search_lines floating start

/-- One resolved application: `{"start": …, "end": …, "replace_lines": …}`
(`end` is a Lean keyword, so the field is called `stop`). -/
structure Application where
  start : Nat
  stop : Nat
  replace_lines : List StructuredLine
deriving DecidableEq, Repr

/-- The adjacent-pair scan of `check_overlaps` over the already-sorted list. -/
def hasAdjacentOverlap : List Application → Bool
  | a :: b :: rest => (decide (b.start < a.stop)) || hasAdjacentOverlap (b :: rest)
  | _ => false

/-- `check_overlaps`: sort by `start` ascending (a stable sort, like Python's
`sorted`) and test each adjacent pair for `prev.end > cur.start`. -/
def check_overlaps (applications : List Application) : Bool :=
  hasAdjacentOverlap
    (List.insertionSort (fun a b => a.start ≤ b.start) applications)

/-- A JSON-ish field value: a string, or anything `isinstance(x, str)` rejects. -/
inductive PyVal where
  | str : List Char → PyVal
  | other : PyVal
deriving DecidableEq, Repr

/-- One element of the `hunks` array; `none` models a missing key. -/
structure RawHunk where
  search_block : Option PyVal
  replace_block : Option PyVal
deriving DecidableEq, Repr

/-- The parsed patch object; `hunks = none` models a missing `"hunks"` key or a
non-list value for it. -/
structure PatchObj where
  hunks : Option (List RawHunk)
deriving DecidableEq, Repr

/-- `isinstance(x, str)` as used on hunk fields. -/
def getStr : Option PyVal → Option (List Char)
  | some (.str s) => some s
  | _ => none

/-- The `PatchError` exceptions raised by the engine, with the hunk number
(1-based) where the message carries one. -/
inductive PatchError where
  | malformedHunks : PatchError
  | hunkIncomplete : Nat → PatchError
  | ambiguousStrict : Nat → PatchError
  | ambiguousFloating : Nat → PatchError
  | notFound : Nat → PatchError
  | overlapping : PatchError
deriving DecidableEq, Repr

/-- Tokenize a search/replace block: split on `\r\n|\n` and tokenize each line. -/
def blockLines (blk : List Char) : List StructuredLine :=
  (splitAnyNL blk).map StructuredLine.ofLine

/-- Resolution of a single hunk (lines 161–173 of `apply_patch_text`):
strict location first; more than one strict match is ambiguous (no fallback),
exactly one is the placement; only on zero strict matches is floating mode
tried, where again more than one is ambiguous, zero is not-found. -/
def resolveOne (file_lines : List StructuredLine) (s_blk r_blk : List Char)
    (num : Nat) : Except PatchError Application :=
  let s_lines := blockLines s_blk
  let r_lines := blockLines r_blk
  match locate_hunk file_lines s_lines false with
  | [m] => .ok ⟨m, m + s_lines.length, r_lines⟩
  | [] =>
    match locate_hunk file_lines s_lines true with
    | [m] => .ok ⟨m, m + s_lines.length, r_lines⟩
    | [] => .error (.notFound num)
    | _ :: _ :: _ => .error (.ambiguousFloating num)
  | _ :: _ :: _ => .error (.ambiguousStrict num)

/-- The resolution loop (`for idx, h in enumerate(hunks)`): each hunk's fields
are validated when its turn comes, then the hunk is located against
`file_lines`; the first failure aborts. -/
def resolveHunks (file_lines : List StructuredLine) :
    List RawHunk → Nat → Except PatchError (List Application)
  | [], _ => .ok []
  | h :: rest, num =>
    match getStr h.search_block, getStr h.replace_block with
    | some s_blk, some r_blk =>
      match resolveOne file_lines s_blk r_blk num with
      | .error e => .error e
      | .ok a =>
        match resolveHunks file_lines rest (num + 1) with
        | .error e => .error e
        | .ok rest_apps => .ok (a :: rest_apps)
    | _, _ => .error (.hunkIncomplete num)

/-- The per-replacement-line construction inside the application loop:
position `start + i` still inside `[start, end)` keeps the original line's
indent and trailing and takes the replacement content; beyond `end` the line
takes the inherited indent and its own tokenized trailing. -/
def buildNew (lines : List StructuredLine) (start stop : Nat)
    (inherited : List Char) : List StructuredLine → Nat → List StructuredLine
  | [], _ => []
  | rl :: rest, i =>
    (if start + i < stop then
      let orig := lines.getD (start + i) emptyLine
      ⟨orig.indent, rl.content, orig.trailing⟩
    else
      ⟨inherited, rl.content, rl.trailing⟩) ::
    buildNew lines start stop inherited rest (i + 1)

/-- One splice (`file_lines[start:end] = new_l`), with the inherited indent
read from the line currently at `start`, or `""` at end-of-file. -/
def spliceOne (lines : List StructuredLine) (app : Application) :
    List StructuredLine :=
  let inherited :=
    if app.start < lines.length then (lines.getD app.start emptyLine).indent
    else []
  lines.take app.start ++
    buildNew lines app.start app.stop inherited app.replace_lines 0 ++
    lines.drop app.stop

/-- The application loop: splice each application in turn (the caller passes
them sorted by `start` descending). -/
def applyAll (lines : List StructuredLine) (apps : List Application) :
    List StructuredLine :=
  apps.foldl spliceOne lines

/-- Python's `sorted(applications, key=start, reverse=True)` (a stable
descending sort by `start`). -/
def sortDesc (apps : List Application) : List Application :=
  List.insertionSort (fun a b => b.start ≤ a.start) apps

/-- `apply_patch_text`: tokenize the buffer, validate and resolve every hunk
against the original lines, reject overlapping placements, then splice in
descending `start` order and reassemble with the detected newline. -/
def apply_patch_text (file_text : List Char) (patch_obj : PatchObj) :
    Except PatchError (List Char) :=
  let newline := detect_newline file_text
  let file_lines :=
    (split_lines_preserve file_text newline).map StructuredLine.ofLine
  match patch_obj.hunks with
  | none => .error .malformedHunks
  | some hunks =>
    match resolveHunks file_lines hunks 1 with
    | .error e => .error e
    | .ok applications =>
      if check_overlaps applications then .error .overlapping
      else
        .ok (joinWith newline
          ((applyAll file_lines (sortDesc applications)).map
            StructuredLine.reconstruct))

/-- The tokenized original buffer, as built at the top of `apply_patch_text`. -/
def tokenizeBuffer (file_text : List Char) : List StructuredLine :=
  (split_lines_preserve file_text (detect_newline file_text)).map
    StructuredLine.ofLine

/-- Two `[start, end)` ranges intersect: they share at least one line index. -/
def Overlaps (a b : Application) : Prop :=
  ∃ k, a.start ≤ k ∧ k < a.stop ∧ b.start ≤ k ∧ k < b.stop

/-- `spliceOne`, but guarded by the in-bounds conditions the application loop
relies on; inside the guard the inherited indent is read without the
end-of-file fallback. -/
def spliceOneChecked (lines : List StructuredLine) (app : Application) :
    Option (List StructuredLine) :=
  if app.start < lines.length ∧ app.stop ≤ lines.length then
    some (lines.take app.start ++
      buildNew lines app.start app.stop
        ((lines.getD app.start emptyLine).indent) app.replace_lines 0 ++
      lines.drop app.stop)
  else none

/-- The application loop with every splice's index preconditions checked. -/
def applyAllChecked (lines : List StructuredLine) :
    List Application → Option (List StructuredLine)
  | [] => some lines
  | a :: rest =>
    match spliceOneChecked lines a with
    | none => none
    | some l2 => applyAllChecked l2 rest

/-- The default hunk / application used for `getD` reads in statements. -/
def defaultHunk : RawHunk := ⟨none, none⟩

def defaultApp : Application := ⟨0, 0, []⟩

/-- Line indices whose content is empty (blank lines). -/
def blankIndicesExact (fl : List StructuredLine) : List Nat :=
  (List.range fl.length).filter fun i =>
    decide ((fl.getD i emptyLine).content = [])

/-- Line indices whose content strips to empty (whitespace-only content). -/
def blankIndicesTolerant (fl : List StructuredLine) : List Nat :=
  (List.range fl.length).filter fun i =>
    decide (pyStrip (fl.getD i emptyLine).content = [])

/-- Whitespace outside the space/tab set (the characters `str.strip()` removes
but the tokenizer does not). -/
def otherWs (c : Char) : Bool := pyIsSpace c && !(isSpaceTab c)

/-- `l` neither starts nor ends with a character satisfying `p`. -/
def noLeadTrail (p : Char → Bool) (l : List Char) : Prop :=
  l.takeWhile p = [] ∧ l.reverse.takeWhile p = []

/-! ### Round-trip of tokenization and reassembly -/

theorem rev_drop_take (p : Char → Bool) (r : List Char) :
    (r.reverse.dropWhile p).reverse ++ (r.reverse.takeWhile p).reverse = r := by
  rw [← List.reverse_append, List.takeWhile_append_dropWhile, List.reverse_reverse]

theorem reconstruct_splitWs (l : List Char) :
    (splitWs l).reconstruct = l := by
  simp only [splitWs, StructuredLine.reconstruct]
  rw [List.append_assoc, rev_drop_take, List.takeWhile_append_dropWhile]

/-- Reconstruction reproduces the physical line exactly for lines that do not
end in a lone line-final `\n` (the case in which the regex drops the `\n`). -/
theorem reconstruct_ofLine (l : List Char)
    (h : ¬(l.getLast? = some '\n' ∧ '\n' ∉ l.dropLast)) :
    (StructuredLine.ofLine l).reconstruct = l := by
  unfold StructuredLine.ofLine
  rw [if_neg h]
  by_cases hm : '\n' ∈ l
  · rw [if_pos hm]
    simp [StructuredLine.reconstruct]
  · rw [if_neg hm]
    exact reconstruct_splitWs l

theorem consHead_ne_nil (c : Char) (L : List (List Char)) : consHead c L ≠ [] := by
  cases L <;> simp [consHead]

theorem splitLF_ne_nil (text : List Char) : splitLF text ≠ [] := by
  cases text with
  | nil => simp [splitLF]
  | cons c rest =>
    simp only [splitLF]
    by_cases h : c = '\n'
    · rw [if_pos h]; simp
    · rw [if_neg h]; exact consHead_ne_nil c _

theorem splitCRLF_ne_nil (text : List Char) : splitCRLF text ≠ [] := by
  match text with
  | [] => simp [splitCRLF]
  | [c] => simp [splitCRLF]
  | c :: d :: rest =>
    simp only [splitCRLF]
    by_cases h : (decide (c = '\r') && decide (d = '\n')) = true
    · rw [if_pos h]; simp
    · rw [if_neg h]; exact consHead_ne_nil c _

theorem joinWith_consHead (sep : List Char) (c : Char) (L : List (List Char)) :
    joinWith sep (consHead c L) = c :: joinWith sep L := by
  match L with
  | [] => rfl
  | [x] => rfl
  | x :: y :: t => rfl

theorem joinWith_sep_cons (sep : List Char) (h1 : List Char)
    (t1 : List (List Char)) :
    joinWith sep ([] :: h1 :: t1) = sep ++ joinWith sep (h1 :: t1) := by
  simp only [joinWith, List.nil_append]

theorem joinWith_splitLF (text : List Char) :
    joinWith ['\n'] (splitLF text) = text := by
  induction text with
  | nil => rfl
  | cons c rest ih =>
    simp only [splitLF]
    by_cases h : c = '\n'
    · rw [if_pos h]
      obtain ⟨h1, t1, hr⟩ : ∃ h1 t1, splitLF rest = h1 :: t1 := by
        match hsp : splitLF rest with
        | [] => exact absurd hsp (splitLF_ne_nil rest)
        | a :: b => exact ⟨a, b, rfl⟩
      rw [hr] at ih
      rw [hr, joinWith_sep_cons, ih, h]
      rfl
    · rw [if_neg h, joinWith_consHead, ih]

theorem joinWith_splitCRLF (text : List Char) :
    joinWith ['\r', '\n'] (splitCRLF text) = text := by
  induction text using splitCRLF.induct with
  | case1 => rfl
  | case2 c => rfl
  | case3 c d rest h ih =>
    simp only [splitCRLF]
    rw [if_pos h]
    rw [Bool.and_eq_true, decide_eq_true_eq, decide_eq_true_eq] at h
    obtain ⟨rfl, rfl⟩ := h
    obtain ⟨h1, t1, hr⟩ : ∃ h1 t1, splitCRLF rest = h1 :: t1 := by
      match hsp : splitCRLF rest with
      | [] => exact absurd hsp (splitCRLF_ne_nil rest)
      | a :: b => exact ⟨a, b, rfl⟩
    rw [hr] at ih
    rw [hr, joinWith_sep_cons, ih]
    rfl
  | case4 c d rest h ih =>
    simp only [splitCRLF]
    rw [if_neg h, joinWith_consHead, ih]

/-- Reassembling the split of any text with the buffer's detected newline
yields the text back. -/
theorem joinWith_split (text : List Char) :
    joinWith (detect_newline text)
      (split_lines_preserve text (detect_newline text)) = text := by
  by_cases he : text = []
  · subst he; rfl
  · unfold split_lines_preserve detect_newline
    by_cases hc : hasCRLF text
    · simp only [hc, if_true, if_neg he, if_pos rfl]
      exact joinWith_splitCRLF text
    · simp only [hc, if_false, if_neg he, Bool.false_eq_true,
        if_neg (by decide : ¬(['\n'] : List Char) = ['\r', '\n'])]
      exact joinWith_splitLF text

/-- Pieces of an LF split never contain a newline. -/
theorem splitLF_not_mem_nl : ∀ (text : List Char) (p : List Char),
    p ∈ splitLF text → '\n' ∉ p := by
  intro text
  induction text with
  | nil =>
    intro p hp
    simp [splitLF] at hp
    subst hp
    simp
  | cons c rest ih =>
    intro p hp
    simp only [splitLF] at hp
    by_cases h : c = '\n'
    · rw [if_pos h] at hp
      rcases List.mem_cons.mp hp with rfl | hp2
      · simp
      · exact ih p hp2
    · rw [if_neg h] at hp
      match hsp : splitLF rest with
      | [] => exact absurd hsp (splitLF_ne_nil rest)
      | h1 :: t1 =>
        rw [hsp] at hp
        simp only [consHead] at hp
        rcases List.mem_cons.mp hp with rfl | hp2
        · intro hmem
          rcases List.mem_cons.mp hmem with hc | hh1
          · exact h hc.symm
          · exact ih h1 (by rw [hsp]; exact List.mem_cons_self h1 t1) hh1
        · exact ih p (by rw [hsp]; exact List.mem_cons_of_mem h1 hp2)

/-- Round-trip does hold for LF-convention buffers (no CRLF in the text):
every split piece is then newline-free, so no line hits the `$`-drop case. -/
theorem roundtrip_buffer_lf (text : List Char) (h : hasCRLF text = false) :
    joinWith (detect_newline text)
      ((tokenizeBuffer text).map StructuredLine.reconstruct) = text := by
  have hdet : detect_newline text = ['\n'] := by
    simp [detect_newline, h]
  have hsplit : split_lines_preserve text (detect_newline text) =
      splitLF text := by
    rw [hdet]
    unfold split_lines_preserve
    by_cases he : text = []
    · rw [if_pos he, he]; rfl
    · rw [if_neg he, if_neg (by decide)]
  unfold tokenizeBuffer
  rw [hsplit, hdet, List.map_map]
  have hmap : (splitLF text).map
      (StructuredLine.reconstruct ∘ StructuredLine.ofLine) = splitLF text := by
    rw [List.map_congr_left (g := id), List.map_id]
    intro p hp
    have hnp : '\n' ∉ p := splitLF_not_mem_nl text p hp
    show (StructuredLine.ofLine p).reconstruct = p
    apply reconstruct_ofLine
    rintro ⟨hlast, -⟩
    exact hnp (List.mem_of_getLast?_eq_some hlast)
  rw [hmap]
  exact joinWith_splitLF text

/-- C4 — the program does not round-trip every input: on a mixed-endings
buffer the detected convention is CRLF, the piece `"a\n"` (a lone `\n` right
before a CRLF) is tokenized by the regex with its line-final `\n` silently
dropped, and even the empty patch returns `"a\r\nb"` for input `"a\n\r\nb"`.
The claim (and the spec's own Line invariant) say the original text comes back
byte-for-byte; the still-true parts hold: an empty input tokenizes to exactly
one empty Line, and LF-convention buffers round-trip
(`roundtrip_buffer_lf`). -/
theorem C4_roundtrip_bug :
    apply_patch_text ('a' :: '\n' :: '\r' :: '\n' :: ['b']) ⟨some []⟩ =
      .ok ('a' :: '\r' :: '\n' :: ['b']) ∧
    ('a' :: '\r' :: '\n' :: ['b']) ≠ ('a' :: '\n' :: '\r' :: '\n' :: ['b']) ∧
    tokenizeBuffer [] = [⟨[], [], []⟩] :=
  ⟨rfl, by decide, rfl⟩

/-! ### The two-tier resolution policy -/

/-- C1 — Two-tier resolution policy: strict location first; a unique strict
match is the placement; more than one strict match is ambiguous with no
tolerant fallback; only zero strict matches fall through to tolerant mode,
where a unique match is the placement, several are ambiguous and none is
not-found. -/
theorem C1_two_tier_resolution (fl : List StructuredLine) (s r : List Char)
    (num : Nat) :
    (∀ m, locate_hunk fl (blockLines s) false = [m] →
      resolveOne fl s r num = .ok ⟨m, m + (blockLines s).length, blockLines r⟩) ∧
    (2 ≤ (locate_hunk fl (blockLines s) false).length →
      resolveOne fl s r num = .error (.ambiguousStrict num)) ∧
    (locate_hunk fl (blockLines s) false = [] →
      (∀ m, locate_hunk fl (blockLines s) true = [m] →
        resolveOne fl s r num = .ok ⟨m, m + (blockLines s).length, blockLines r⟩) ∧
      (2 ≤ (locate_hunk fl (blockLines s) true).length →
        resolveOne fl s r num = .error (.ambiguousFloating num)) ∧
      (locate_hunk fl (blockLines s) true = [] →
        resolveOne fl s r num = .error (.notFound num))) := by
  refine ⟨fun m h => ?_, fun h2 => ?_,
    fun h0 => ⟨fun m h => ?_, fun h2 => ?_, fun h0t => ?_⟩⟩
  · simp only [resolveOne, h]
  · match hl : locate_hunk fl (blockLines s) false with
    | [] => rw [hl] at h2; simp at h2
    | [a] => rw [hl] at h2; simp at h2
    | a :: b :: t => simp only [resolveOne, hl]
  · simp only [resolveOne, h0, h]
  · match hl : locate_hunk fl (blockLines s) true with
    | [] => rw [hl] at h2; simp at h2
    | [a] => rw [hl] at h2; simp at h2
    | a :: b :: t => simp only [resolveOne, h0, hl]
  · simp only [resolveOne, h0, h0t]

/-- Concrete instantiation of the two-tier policy: the single strict match of
`"a"` in the one-line buffer `"a"` becomes the placement. -/
theorem C1_witness :
    resolveOne [StructuredLine.ofLine ['a']] ['a'] ['b'] 1 =
      .ok ⟨0, 1, [⟨[], ['b'], []⟩]⟩ :=
  (C1_two_tier_resolution [StructuredLine.ofLine ['a']] ['a'] ['b'] 1).1 0 (by decide)

/-! ### Splicing semantics -/

theorem buildNew_length (lines : List StructuredLine) (start stop : Nat)
    (inh : List Char) :
    ∀ (rs : List StructuredLine) (j : Nat),
      (buildNew lines start stop inh rs j).length = rs.length := by
  intro rs
  induction rs with
  | nil => intro j; rfl
  | cons rl rest ih =>
    intro j
    simp only [buildNew, List.length_cons, ih]

theorem buildNew_getD (lines : List StructuredLine) (start stop : Nat)
    (inh : List Char) :
    ∀ (rs : List StructuredLine) (j i : Nat), i < rs.length →
      (buildNew lines start stop inh rs j).getD i emptyLine =
        if start + (j + i) < stop then
          ⟨(lines.getD (start + (j + i)) emptyLine).indent,
           (rs.getD i emptyLine).content,
           (lines.getD (start + (j + i)) emptyLine).trailing⟩
        else
          ⟨inh, (rs.getD i emptyLine).content, (rs.getD i emptyLine).trailing⟩ := by
  intro rs
  induction rs with
  | nil => intro j i hi; simp at hi
  | cons rl rest ih =>
    intro j i hi
    cases i with
    | zero =>
      simp only [buildNew, List.getD_cons_zero, Nat.add_zero]
    | succ k =>
      have hk : k < rest.length := by
        simpa [Nat.succ_lt_succ_iff] using hi
      simp only [buildNew, List.getD_cons_succ]
      rw [ih (j + 1) k hk]
      have hjk : j + 1 + k = j + (k + 1) := by omega
      rw [hjk]

/-- Elementwise description of one splice at a validated placement. -/
theorem spliceOne_getD (lines : List StructuredLine) (app : Application)
    (i : Nat) (h1 : app.start < app.stop) (h2 : app.stop ≤ lines.length)
    (hi : i < app.replace_lines.length) :
    (spliceOne lines app).getD (app.start + i) emptyLine =
      if app.start + i < app.stop then
        ⟨(lines.getD (app.start + i) emptyLine).indent,
         (app.replace_lines.getD i emptyLine).content,
         (lines.getD (app.start + i) emptyLine).trailing⟩
      else
        ⟨(lines.getD app.start emptyLine).indent,
         (app.replace_lines.getD i emptyLine).content,
         (app.replace_lines.getD i emptyLine).trailing⟩ := by
  have hsl : app.start < lines.length := lt_of_lt_of_le h1 h2
  have hlen_take : (lines.take app.start).length = app.start := by
    rw [List.length_take]; omega
  simp only [spliceOne, if_pos hsl]
  rw [List.append_assoc,
    List.getD_append_right _ _ _ _ (by omega : (lines.take app.start).length ≤ app.start + i),
    List.getD_append _ _ _ _ (by
      rw [buildNew_length]
      omega : app.start + i - (lines.take app.start).length <
        (buildNew lines app.start app.stop
          ((lines.getD app.start emptyLine).indent) app.replace_lines 0).length)]
  rw [hlen_take, Nat.add_sub_cancel_left]
  rw [buildNew_getD lines app.start app.stop _ app.replace_lines 0 i hi]
  rw [Nat.zero_add]

/-- C2 — Applier splicing semantics: within the original `[start, end)` range a
replacement line keeps the buffer line's indent and trailing and takes the
replacement content; beyond `end` a new line takes the inherited indent (the
indent of the buffer line at `start`) and its own tokenized trailing.  In
particular buffer `"  foo\n"` with hunk `"foo"` → `"foo\nextra"` yields
`"  foo\n  extra\n"`. -/
theorem C2_splice_semantics :
    (∀ (lines : List StructuredLine) (app : Application) (i : Nat),
      app.start < app.stop → app.stop ≤ lines.length →
      i < app.replace_lines.length →
      (spliceOne lines app).getD (app.start + i) emptyLine =
        if app.start + i < app.stop then
          ⟨(lines.getD (app.start + i) emptyLine).indent,
           (app.replace_lines.getD i emptyLine).content,
           (lines.getD (app.start + i) emptyLine).trailing⟩
        else
          ⟨(lines.getD app.start emptyLine).indent,
           (app.replace_lines.getD i emptyLine).content,
           (app.replace_lines.getD i emptyLine).trailing⟩) ∧
    apply_patch_text "  foo\n".toList
      ⟨some [⟨some (.str "foo".toList), some (.str "foo\nextra".toList)⟩]⟩ =
      .ok "  foo\n  extra\n".toList :=
  ⟨fun lines app i h1 h2 hi => spliceOne_getD lines app i h1 h2 hi, rfl⟩

/-- Concrete instantiation of the splicing description: the appended second
replacement line inherits the two-space indent of the line at `start`. -/
theorem C2_witness :
    (spliceOne [⟨[' ', ' '], ['f', 'o', 'o'], []⟩, ⟨[], [], []⟩]
        ⟨0, 1, [⟨[], ['f', 'o', 'o'], []⟩, ⟨[], ['e', 'x'], []⟩]⟩).getD
      (0 + 1) emptyLine = ⟨[' ', ' '], ['e', 'x'], []⟩ :=
  C2_splice_semantics.1
    [⟨[' ', ' '], ['f', 'o', 'o'], []⟩, ⟨[], [], []⟩]
    ⟨0, 1, [⟨[], ['f', 'o', 'o'], []⟩, ⟨[], ['e', 'x'], []⟩]⟩ 1
    (by decide) (by decide) (by decide)

/-! ### Phase separation: resolution before mutation -/

/-- A successful resolution pass produces one placement per hunk, each obtained
by locating that hunk's own blocks against the given (original) line list,
independently of every other hunk. -/
theorem resolveHunks_ok_spec (fl : List StructuredLine) :
    ∀ (hs : List RawHunk) (num : Nat) (apps : List Application),
      resolveHunks fl hs num = .ok apps →
      apps.length = hs.length ∧
      ∀ k, k < hs.length → ∃ sb rb,
        getStr (hs.getD k defaultHunk).search_block = some sb ∧
        getStr (hs.getD k defaultHunk).replace_block = some rb ∧
        resolveOne fl sb rb (num + k) = .ok (apps.getD k defaultApp) := by
  intro hs
  induction hs with
  | nil =>
    intro num apps h
    simp only [resolveHunks] at h
    cases h
    exact ⟨rfl, fun k hk => absurd hk (by simp)⟩
  | cons h0 rest ih =>
    intro num apps h
    simp only [resolveHunks] at h
    cases hsb : getStr h0.search_block with
    | none => rw [hsb] at h; cases h
    | some sb =>
      cases hrb : getStr h0.replace_block with
      | none => rw [hsb, hrb] at h; cases h
      | some rb =>
        rw [hsb, hrb] at h
        dsimp only at h
        cases hro : resolveOne fl sb rb num with
        | error e => rw [hro] at h; cases h
        | ok a =>
          rw [hro] at h
          dsimp only at h
          cases hrr : resolveHunks fl rest (num + 1) with
          | error e => rw [hrr] at h; cases h
          | ok tl =>
            rw [hrr] at h
            dsimp only at h
            cases h
            obtain ⟨hlen, hall⟩ := ih (num + 1) tl hrr
            refine ⟨by simp [hlen], fun k hk => ?_⟩
            cases k with
            | zero =>
              exact ⟨sb, rb, hsb, hrb, by simpa using hro⟩
            | succ k2 =>
              have hk2 : k2 < rest.length := by simpa [Nat.succ_lt_succ_iff] using hk
              obtain ⟨sb2, rb2, h1, h2, h3⟩ := hall k2 hk2
              refine ⟨sb2, rb2, by simpa using h1, by simpa using h2, ?_⟩
              have : num + 1 + k2 = num + (k2 + 1) := by omega
              rw [this] at h3
              simpa using h3

/-- C3 — Atomicity and location against the original buffer: a successful
apply is exactly a full resolution of every hunk against the original
tokenized buffer (each hunk located independently), followed by a passed
overlap check, followed by splicing; consequently any failure is raised before
any splicing output exists and no hunk's location depends on another hunk's
replacement. -/
theorem C3_atomicity (text : List Char) (patch : PatchObj) (out : List Char)
    (hok : apply_patch_text text patch = .ok out) :
    ∃ hs apps, patch.hunks = some hs ∧
      resolveHunks (tokenizeBuffer text) hs 1 = .ok apps ∧
      apps.length = hs.length ∧
      (∀ k, k < hs.length → ∃ sb rb,
        getStr (hs.getD k defaultHunk).search_block = some sb ∧
        getStr (hs.getD k defaultHunk).replace_block = some rb ∧
        resolveOne (tokenizeBuffer text) sb rb (1 + k) =
          .ok (apps.getD k defaultApp)) ∧
      check_overlaps apps = false ∧
      out = joinWith (detect_newline text)
        ((applyAll (tokenizeBuffer text) (sortDesc apps)).map
          StructuredLine.reconstruct) := by
  simp only [apply_patch_text] at hok
  cases hh : patch.hunks with
  | none => rw [hh] at hok; cases hok
  | some hs =>
    rw [hh] at hok
    dsimp only at hok
    rw [show (List.map StructuredLine.ofLine
        (split_lines_preserve text (detect_newline text))) = tokenizeBuffer text
      from rfl] at hok
    cases hr : resolveHunks (tokenizeBuffer text) hs 1 with
    | error e =>
      rw [hr] at hok
      cases hok
    | ok apps =>
      rw [hr] at hok
      dsimp only at hok
      by_cases hov : check_overlaps apps
      · rw [if_pos hov] at hok; cases hok
      · rw [if_neg hov] at hok
        obtain ⟨hlen, hall⟩ := resolveHunks_ok_spec (tokenizeBuffer text) hs 1 apps hr
        refine ⟨hs, apps, rfl, hr, hlen, hall, by simpa using hov, ?_⟩
        cases hok
        rfl

/-- Concrete instantiation of the atomicity characterization on the buffer
`"a"` with the single hunk `"a" → "b"`. -/
theorem C3_witness :
    ∃ hs apps,
      (PatchObj.mk (some [⟨some (.str ['a']), some (.str ['b'])⟩])).hunks =
        some hs ∧
      resolveHunks (tokenizeBuffer ['a']) hs 1 = .ok apps ∧
      apps.length = hs.length ∧
      (∀ k, k < hs.length → ∃ sb rb,
        getStr (hs.getD k defaultHunk).search_block = some sb ∧
        getStr (hs.getD k defaultHunk).replace_block = some rb ∧
        resolveOne (tokenizeBuffer ['a']) sb rb (1 + k) =
          .ok (apps.getD k defaultApp)) ∧
      check_overlaps apps = false ∧
      ['b'] = joinWith (detect_newline ['a'])
        ((applyAll (tokenizeBuffer ['a']) (sortDesc apps)).map
          StructuredLine.reconstruct) :=
  C3_atomicity ['a'] ⟨some [⟨some (.str ['a']), some (.str ['b'])⟩]⟩ ['b'] rfl

/-! ### Overlap detection -/

theorem Overlaps_symm {a b : Application} (h : Overlaps a b) : Overlaps b a := by
  obtain ⟨k, h1, h2, h3, h4⟩ := h
  exact ⟨k, h3, h4, h1, h2⟩

/-- On a list sorted by `start` with nonempty ranges, the adjacent-pair scan
fails exactly when some pair of elements overlaps. -/
theorem hasAdjacentOverlap_eq_false_iff :
    ∀ (l : List Application),
      l.Pairwise (fun a b => a.start ≤ b.start) →
      (∀ a ∈ l, a.start < a.stop) →
      (hasAdjacentOverlap l = false ↔ l.Pairwise (fun a b => ¬ Overlaps a b)) := by
  intro l
  induction l with
  | nil => intro _ _; simp [hasAdjacentOverlap]
  | cons a t ih =>
    intro hsorted hne
    cases t with
    | nil => simp [hasAdjacentOverlap]
    | cons b t2 =>
      rw [List.pairwise_cons] at hsorted
      obtain ⟨hax, hsorted2⟩ := hsorted
      have hne2 : ∀ x ∈ b :: t2, x.start < x.stop :=
        fun x hx => hne x (List.mem_cons_of_mem a hx)
      have iht := ih hsorted2 hne2
      rw [show hasAdjacentOverlap (a :: b :: t2) =
        (decide (b.start < a.stop) || hasAdjacentOverlap (b :: t2)) from rfl]
      rw [Bool.or_eq_false_iff]
      constructor
      · rintro ⟨h1, h2⟩
        have hab : a.stop ≤ b.start := by
          rw [decide_eq_false_iff_not] at h1; omega
        rw [List.pairwise_cons]
        refine ⟨fun x hx hov => ?_, iht.mp h2⟩
        have hbx : b.start ≤ x.start := by
          rcases List.mem_cons.mp hx with rfl | hx2
          · exact le_refl _
          · exact (List.pairwise_cons.mp hsorted2).1 x hx2
        obtain ⟨k, hk1, hk2, hk3, hk4⟩ := hov
        omega
      · intro hpw
        rw [List.pairwise_cons] at hpw
        obtain ⟨hnov, hpw2⟩ := hpw
        refine ⟨?_, iht.mpr hpw2⟩
        rw [decide_eq_false_iff_not]
        intro hlt
        exact hnov b (List.mem_cons_self b t2)
          ⟨b.start, hax b (List.mem_cons_self b t2), hlt, le_refl _,
            hne2 b (List.mem_cons_self b t2)⟩

/-- `check_overlaps` fires exactly when the input list is not pairwise
overlap-free (ranges assumed nonempty). -/
theorem check_overlaps_eq_true_iff (apps : List Application)
    (hne : ∀ a ∈ apps, a.start < a.stop) :
    check_overlaps apps = true ↔
      ¬ apps.Pairwise (fun a b => ¬ Overlaps a b) := by
  haveI : IsTotal Application (fun a b => a.start ≤ b.start) :=
    ⟨fun a b => Nat.le_total _ _⟩
  haveI : IsTrans Application (fun a b => a.start ≤ b.start) :=
    ⟨fun a b c h1 h2 => le_trans h1 h2⟩
  have hperm := List.perm_insertionSort (fun a b => a.start ≤ b.start) apps
  have hsorted0 : List.Sorted (fun a b : Application => a.start ≤ b.start)
      (List.insertionSort (fun a b => a.start ≤ b.start) apps) :=
    List.sorted_insertionSort (fun a b => a.start ≤ b.start) apps
  have hsorted : (List.insertionSort (fun a b => a.start ≤ b.start)
      apps).Pairwise (fun a b => a.start ≤ b.start) := hsorted0
  have hne' : ∀ a ∈ List.insertionSort (fun a b => a.start ≤ b.start) apps,
      a.start < a.stop :=
    fun a ha => hne a (hperm.mem_iff.mp ha)
  have hiff := hasAdjacentOverlap_eq_false_iff _ hsorted hne'
  have hpairwise_iff :
      (List.insertionSort (fun a b => a.start ≤ b.start) apps).Pairwise
        (fun a b => ¬ Overlaps a b) ↔
      apps.Pairwise (fun a b => ¬ Overlaps a b) :=
    hperm.pairwise_iff fun h hov => h (Overlaps_symm hov)
  rw [show check_overlaps apps = hasAdjacentOverlap
    (List.insertionSort (fun a b => a.start ≤ b.start) apps) from rfl]
  constructor
  · intro htrue hpw
    have hf := hiff.mpr (hpairwise_iff.mpr hpw)
    rw [htrue] at hf
    simp at hf
  · intro hnpw
    rcases Bool.eq_false_or_eq_true
      (hasAdjacentOverlap (List.insertionSort (fun a b => a.start ≤ b.start) apps))
      with ht | hf
    · exact ht
    · exact absurd (hpairwise_iff.mp (hiff.mp hf)) hnpw

/-- C5 — Overlap detection correctness: for placements with `start < end`, the
sort-then-adjacent-pair check reports an overlap iff two distinct placements
share a line index; zero or one placement always passes. -/
theorem C5_overlap_detection :
    (∀ apps : List Application, (∀ a ∈ apps, a.start < a.stop) →
      (check_overlaps apps = true ↔
        ∃ i j, i ≠ j ∧ ∃ (hi : i < apps.length) (hj : j < apps.length),
          Overlaps apps[i] apps[j])) ∧
    check_overlaps [] = false ∧
    (∀ a : Application, check_overlaps [a] = false) := by
  refine ⟨fun apps hne => ?_, rfl, fun a => rfl⟩
  rw [check_overlaps_eq_true_iff apps hne, List.pairwise_iff_getElem]
  push_neg
  constructor
  · rintro ⟨i, j, hi, hj, hij, hov⟩
    exact ⟨i, j, Nat.ne_of_lt hij, hi, hj, hov⟩
  · rintro ⟨i, j, hne_ij, hi, hj, hov⟩
    rcases Nat.lt_or_ge i j with hij | hge
    · exact ⟨i, j, hi, hj, hij, hov⟩
    · have hji : j < i := Nat.lt_of_le_of_ne hge fun h => hne_ij h.symm
      exact ⟨j, i, hj, hi, hji, Overlaps_symm hov⟩

/-- Concrete instantiation: `[0,2)` and `[1,3)` share line index 1 and are
reported as overlapping. -/
theorem C5_witness :
    check_overlaps [⟨0, 2, []⟩, ⟨1, 3, []⟩] = true :=
  (C5_overlap_detection.1 [⟨0, 2, []⟩, ⟨1, 3, []⟩] (by decide)).mpr
    ⟨0, 1, by decide, by decide, by decide,
      ⟨1, by decide, by decide, by decide, by decide⟩⟩

/-! ### Empty search block -/

/-- Locating a single-line search window is a filter over all line indices. -/
theorem locate_singleton (fl : List StructuredLine) (s : StructuredLine)
    (floating : Bool) :
    locate_hunk fl [s] floating =
      (List.range fl.length).filter fun i =>
        contentMatches floating (fl.getD i emptyLine) s := by
  unfold locate_hunk
  cases fl with
  | nil => simp
  | cons f ft =>
    rw [if_neg (by simp), if_neg (by simp)]
    have hlen : (f :: ft).length - [s].length + 1 = (f :: ft).length := by
      simp
    rw [hlen]
    apply List.filter_congr
    intro i _
    unfold windowMatches
    simp [contentMatches, show List.range 1 = [0] from rfl]

/-- C6 counterexample — a hunk with an empty `search_block` does not fail on
the empty buffer: it matches the single blank line and the patch succeeds. -/
theorem C6_counterexample :
    apply_patch_text [] ⟨some [⟨some (.str []), some (.str ['x'])⟩]⟩ =
      .ok ['x'] ∧
    (Except.ok ['x'] : Except PatchError (List Char)) ≠
      .error (.notFound 1) :=
  ⟨rfl, fun h => Except.noConfusion h⟩

/-- C6 amended — an empty `search_block` tokenizes to one blank line, so in
exact mode it matches exactly the buffer's blank-content lines and in tolerant
mode exactly the lines whose content strips to empty; it is never a wildcard,
and it yields not-found only when no such line exists. -/
theorem C6_empty_search_amended (fl : List StructuredLine) :
    locate_hunk fl (blockLines []) false = blankIndicesExact fl ∧
    locate_hunk fl (blockLines []) true = blankIndicesTolerant fl := by
  have hb : blockLines [] = [⟨[], [], []⟩] := rfl
  rw [hb]
  constructor
  · rw [locate_singleton]
    apply List.filter_congr
    intro i _
    rfl
  · rw [locate_singleton]
    apply List.filter_congr
    intro i _
    rfl

/-! ### Malformed hunks are detected in the resolution loop -/

/-- C7 counterexample — with a well-formed first hunk that fails to locate and
a malformed second hunk, the reported error is the first hunk's not-found, not
the malformed-patch error. -/
theorem C7_counterexample :
    apply_patch_text ['x']
      ⟨some [⟨some (.str ['y']), some (.str ['z'])⟩, ⟨none, none⟩]⟩ =
      .error (.notFound 1) ∧
    (Except.error (PatchError.notFound 1) : Except PatchError (List Char)) ≠
      .error (.hunkIncomplete 2) :=
  ⟨rfl, fun h => by simp at h⟩

/-- If every hunk before position `k` resolves and the hunk at `k` is missing
a string field, the loop fails with that hunk's incomplete error. -/
theorem resolveHunks_malformed_at (fl : List StructuredLine) :
    ∀ (hs : List RawHunk) (k num : Nat), k < hs.length →
      (getStr (hs.getD k defaultHunk).search_block = none ∨
       getStr (hs.getD k defaultHunk).replace_block = none) →
      (∀ j, j < k → ∃ sb rb a,
        getStr (hs.getD j defaultHunk).search_block = some sb ∧
        getStr (hs.getD j defaultHunk).replace_block = some rb ∧
        resolveOne fl sb rb (num + j) = .ok a) →
      resolveHunks fl hs num = .error (.hunkIncomplete (num + k)) := by
  intro hs
  induction hs with
  | nil => intro k num hk _ _; simp at hk
  | cons h0 rest ih =>
    intro k num hk hmal hprev
    cases k with
    | zero =>
      simp only [List.getD_cons_zero] at hmal
      simp only [resolveHunks, Nat.add_zero]
      rcases hmal with hm | hm
      · rw [hm]
      · cases hx : getStr h0.search_block with
        | none => rfl
        | some s => rw [hm]
    | succ k2 =>
      obtain ⟨sb, rb, a, hsb, hrb, hro⟩ := hprev 0 (Nat.succ_pos k2)
      simp only [List.getD_cons_zero] at hsb hrb hro
      simp only [resolveHunks]
      rw [hsb, hrb]
      dsimp only
      rw [Nat.add_zero] at hro
      rw [hro]
      dsimp only
      have hrec : resolveHunks fl rest (num + 1) =
          .error (.hunkIncomplete (num + 1 + k2)) := by
        apply ih k2 (num + 1) (by simpa [Nat.succ_lt_succ_iff] using hk)
        · simpa using hmal
        · intro j hj
          obtain ⟨sb2, rb2, a2, h1, h2, h3⟩ := hprev (j + 1) (by omega)
          refine ⟨sb2, rb2, a2, by simpa using h1, by simpa using h2, ?_⟩
          have : num + (j + 1) = num + 1 + j := by omega
          rw [this] at h3
          exact h3
      rw [hrec]
      have : num + 1 + k2 = num + (k2 + 1) := by omega
      rw [this]

/-- C7 amended — a hunk missing `search_block` or `replace_block` (or with a
non-string value) is detected when the loop reaches it: before that hunk's own
location is attempted, but only after every earlier hunk has been located
successfully; the whole operation then fails with that hunk's
malformed error. -/
theorem C7_malformed_amended (text : List Char) (hs : List RawHunk) (k : Nat)
    (hk : k < hs.length)
    (hmal : getStr (hs.getD k defaultHunk).search_block = none ∨
            getStr (hs.getD k defaultHunk).replace_block = none)
    (hprev : ∀ j, j < k → ∃ sb rb a,
      getStr (hs.getD j defaultHunk).search_block = some sb ∧
      getStr (hs.getD j defaultHunk).replace_block = some rb ∧
      resolveOne (tokenizeBuffer text) sb rb (1 + j) = .ok a) :
    apply_patch_text text ⟨some hs⟩ = .error (.hunkIncomplete (1 + k)) := by
  simp only [apply_patch_text]
  rw [show (List.map StructuredLine.ofLine
      (split_lines_preserve text (detect_newline text))) = tokenizeBuffer text
    from rfl]
  rw [resolveHunks_malformed_at (tokenizeBuffer text) hs k 1 hk hmal hprev]

/-- Concrete instantiation: buffer `"a"`, a first hunk `"a" → "b"` that
resolves, and a malformed second hunk; the reported error is
`hunkIncomplete 2`. -/
theorem C7_witness :
    apply_patch_text ['a']
      ⟨some [⟨some (.str ['a']), some (.str ['b'])⟩, ⟨none, none⟩]⟩ =
      .error (.hunkIncomplete 2) :=
  C7_malformed_amended ['a']
    [⟨some (.str ['a']), some (.str ['b'])⟩, ⟨none, none⟩] 1
    (by decide) (Or.inl rfl)
    (fun j hj => by
      have hj0 : j = 0 := by omega
      subst hj0
      exact ⟨['a'], ['b'], ⟨0, 1, blockLines ['b']⟩, rfl, rfl, rfl⟩)

/-! ### Idempotence -/

theorem resolveOne_strict (fl : List StructuredLine) (s r : List Char)
    (num m : Nat) (h : locate_hunk fl (blockLines s) false = [m]) :
    resolveOne fl s r num = .ok ⟨m, m + (blockLines s).length, blockLines r⟩ := by
  simp only [resolveOne, h]

/-- A located start index is in bounds and its window matches line by line. -/
theorem locate_hunk_mem (fl sl : List StructuredLine) (floating : Bool)
    (m : Nat) (h : m ∈ locate_hunk fl sl floating) :
    m + sl.length ≤ fl.length ∧
    ∀ i, i < sl.length →
      contentMatches floating (fl.getD (m + i) emptyLine)
        (sl.getD i emptyLine) = true := by
  unfold locate_hunk at h
  by_cases h0 : sl.length = 0
  · rw [if_pos h0] at h; simp at h
  · rw [if_neg h0] at h
    by_cases h1 : fl.length < sl.length
    · rw [if_pos h1] at h; simp at h
    · rw [if_neg h1] at h
      simp only [List.mem_filter, List.mem_range] at h
      obtain ⟨hmem, hmatch⟩ := h
      refine ⟨by omega, fun i hi => ?_⟩
      unfold windowMatches at hmatch
      rw [List.all_eq_true] at hmatch
      exact hmatch i (List.mem_range.mpr hi)

/-- When every position of the replacement list lands inside `[start, stop)`
with matching content, `buildNew` reproduces the corresponding infix. -/
theorem buildNew_eq_window (lines : List StructuredLine) (start stop : Nat)
    (inh : List Char) :
    ∀ (rs : List StructuredLine) (j : Nat),
      (∀ i, i < rs.length → start + j + i < stop) →
      (∀ i, i < rs.length → start + j + i < lines.length) →
      (∀ i, i < rs.length →
        (rs.getD i emptyLine).content =
          (lines.getD (start + j + i) emptyLine).content) →
      buildNew lines start stop inh rs j =
        (lines.drop (start + j)).take rs.length := by
  intro rs
  induction rs with
  | nil => intro j _ _ _; simp [buildNew]
  | cons rl rest ih =>
    intro j hin hbound hcont
    have h0 : start + j < stop := by
      have := hin 0 (by simp); omega
    have h0b : start + j < lines.length := by
      have := hbound 0 (by simp); omega
    have hc0 : rl.content = (lines.getD (start + j) emptyLine).content := by
      have := hcont 0 (by simp)
      simpa using this
    rw [List.drop_eq_getElem_cons h0b]
    simp only [List.length_cons, List.take_succ_cons]
    simp only [buildNew, if_pos h0]
    congr 1
    · rw [hc0, List.getD_eq_getElem _ _ h0b]
    · exact ih (j + 1)
        (fun i hi => by
          have := hin (i + 1) (Nat.succ_lt_succ hi); omega)
        (fun i hi => by
          have := hbound (i + 1) (Nat.succ_lt_succ hi); omega)
        (fun i hi => by
          have h := hcont (i + 1) (Nat.succ_lt_succ hi)
          simp only [List.getD_cons_succ] at h
          have hidx : start + j + (i + 1) = start + (j + 1) + i := by omega
          rw [hidx] at h
          exact h)

/-- A splice whose replacement has the same length and contents as the matched
window is the identity. -/
theorem spliceOne_id (lines : List StructuredLine) (app : Application)
    (heq : app.stop = app.start + app.replace_lines.length)
    (hle : app.stop ≤ lines.length)
    (hcont : ∀ i, i < app.replace_lines.length →
      (app.replace_lines.getD i emptyLine).content =
        (lines.getD (app.start + i) emptyLine).content) :
    spliceOne lines app = lines := by
  simp only [spliceOne]
  rw [buildNew_eq_window lines app.start app.stop _ app.replace_lines 0
    (fun i hi => by omega)
    (fun i hi => by omega)
    (fun i hi => by
      have h := hcont i hi
      have hidx : app.start + 0 + i = app.start + i := by omega
      rw [hidx]
      exact h)]
  have hdrop : (lines.drop app.start).drop app.replace_lines.length =
      lines.drop app.stop := by
    rw [List.drop_drop, ← heq]
  rw [show app.start + 0 = app.start from rfl, List.append_assoc, ← hdrop,
    List.take_append_drop, List.take_append_drop]

theorem applyAll_id (lines : List StructuredLine) :
    ∀ (apps : List Application), (∀ a ∈ apps, spliceOne lines a = lines) →
      applyAll lines apps = lines := by
  intro apps
  induction apps with
  | nil => intro _; rfl
  | cons a rest ih =>
    intro h
    show List.foldl spliceOne (spliceOne lines a) rest = lines
    rw [h a (List.mem_cons_self a rest)]
    exact ih fun x hx => h x (List.mem_cons_of_mem a hx)

/-- C8 counterexample — buffer `"\rx"` with the identity hunk `"x" → "x"`:
the apply succeeds via a tolerant match (`strip` removes the `\r`) and returns
`"x"`, not the original text. -/
theorem C8_counterexample :
    apply_patch_text ['\r', 'x']
      ⟨some [⟨some (.str ['x']), some (.str ['x'])⟩]⟩ = .ok ['x'] ∧
    (['x'] : List Char) ≠ ['\r', 'x'] :=
  ⟨rfl, by decide⟩

/-- C8 amended — when every hunk's `search_block` equals its `replace_block`
and every hunk has a unique strict match, a successful apply is the identity
on the tokenized line list: the output is the input's own
tokenize-reconstruct-join serialization, and therefore equals the input
exactly whenever the buffer round-trips (e.g. any LF-convention buffer,
`roundtrip_buffer_lf`).  It can differ from the input in two ways the
counterexamples exhibit: a tolerant-mode resolution rewrites strip-equal but
byte-different content, and the tokenizer's `$` drops a lone line-final `\n`
of a CRLF-split piece even though the splice itself changed nothing. -/
theorem C8_idempotence_amended (text : List Char) (hs : List RawHunk)
    (out : List Char)
    (hsame : ∀ h ∈ hs, ∃ b, getStr h.search_block = some b ∧
      getStr h.replace_block = some b)
    (hstrict : ∀ h ∈ hs, ∀ b, getStr h.search_block = some b →
      ∃ m, locate_hunk (tokenizeBuffer text) (blockLines b) false = [m])
    (hok : apply_patch_text text ⟨some hs⟩ = .ok out) :
    out = joinWith (detect_newline text)
      ((tokenizeBuffer text).map StructuredLine.reconstruct) ∧
    (joinWith (detect_newline text)
        ((tokenizeBuffer text).map StructuredLine.reconstruct) = text →
      out = text) := by
  simp only [apply_patch_text] at hok
  rw [show (List.map StructuredLine.ofLine
      (split_lines_preserve text (detect_newline text))) = tokenizeBuffer text
    from rfl] at hok
  cases hr : resolveHunks (tokenizeBuffer text) hs 1 with
  | error e => rw [hr] at hok; cases hok
  | ok apps =>
    rw [hr] at hok
    dsimp only at hok
    by_cases hov : check_overlaps apps
    · rw [if_pos hov] at hok; cases hok
    · rw [if_neg hov] at hok
      have hout : out = joinWith (detect_newline text)
          ((applyAll (tokenizeBuffer text) (sortDesc apps)).map
            StructuredLine.reconstruct) := by
        cases hok; rfl
      obtain ⟨hlen, hall⟩ := resolveHunks_ok_spec (tokenizeBuffer text) hs 1 apps hr
      have hid : ∀ a ∈ apps,
          spliceOne (tokenizeBuffer text) a = tokenizeBuffer text := by
        intro a ha
        obtain ⟨k, hk, hak⟩ := List.getElem_of_mem ha
        have hkhs : k < hs.length := by omega
        obtain ⟨sb, rb, hsb, hrb, hro⟩ := hall k hkhs
        have hmem : hs.getD k defaultHunk ∈ hs := by
          rw [List.getD_eq_getElem _ _ hkhs]
          exact List.getElem_mem hkhs
        obtain ⟨b, hb1, hb2⟩ := hsame _ hmem
        rw [hsb] at hb1
        rw [hrb] at hb2
        injection hb1 with hb1
        injection hb2 with hb2
        have hrbsb : rb = sb := by rw [hb2, ← hb1]
        rw [hrbsb] at hro
        obtain ⟨m, hm⟩ := hstrict _ hmem sb hsb
        have hres := resolveOne_strict (tokenizeBuffer text) sb sb (1 + k) m hm
        rw [hres] at hro
        injection hro with hro
        have haeq : a = ⟨m, m + (blockLines sb).length, blockLines sb⟩ := by
          rw [← hak, ← List.getD_eq_getElem _ _ hk, ← hro]
        have hmm := locate_hunk_mem (tokenizeBuffer text) (blockLines sb) false m
          (by rw [hm]; exact List.mem_singleton_self m)
        rw [haeq]
        apply spliceOne_id
        · rfl
        · exact hmm.1
        · intro i hi
          have hmatch := hmm.2 i hi
          simp only [contentMatches, if_neg (by simp : ¬(false = true)),
            decide_eq_true_eq] at hmatch
          exact hmatch.symm
      have happly : applyAll (tokenizeBuffer text) (sortDesc apps) =
          tokenizeBuffer text := by
        apply applyAll_id
        intro a ha
        apply hid
        simp only [sortDesc] at ha
        exact (List.perm_insertionSort (fun a b => b.start ≤ a.start)
          apps).mem_iff.mp ha
      constructor
      · rw [hout, happly]
      · intro hrt
        rw [hout, happly]
        exact hrt

/-- Concrete instantiation at the decisive mixed-endings buffer
`"a\n\r\nb"` with the identity hunk `"a" → "a"`: the hunk resolves by a
unique strict match, the splice changes no line, and the output is the
buffer's serialization `"a\r\nb"` (not the input — the lone `\n` is lost by
the tokenizer, not by the splice). -/
theorem C8_witness :
    ∃ out, apply_patch_text ('a' :: '\n' :: '\r' :: '\n' :: ['b'])
      ⟨some [⟨some (.str ['a']), some (.str ['a'])⟩]⟩ = .ok out ∧
    out = joinWith (detect_newline ('a' :: '\n' :: '\r' :: '\n' :: ['b']))
      ((tokenizeBuffer ('a' :: '\n' :: '\r' :: '\n' :: ['b'])).map
        StructuredLine.reconstruct) := by
  refine ⟨'a' :: '\r' :: '\n' :: ['b'], rfl, ?_⟩
  exact (C8_idempotence_amended ('a' :: '\n' :: '\r' :: '\n' :: ['b'])
    [⟨some (.str ['a']), some (.str ['a'])⟩]
    ('a' :: '\r' :: '\n' :: ['b'])
    (fun h hm => by
      rw [List.mem_singleton] at hm
      subst hm
      exact ⟨['a'], rfl, rfl⟩)
    (fun h hm b hb => by
      rw [List.mem_singleton] at hm
      subst hm
      have hb' : b = ['a'] := by injection hb with h2; exact h2.symm
      subst hb'
      exact ⟨0, rfl⟩)
    rfl).1

/-! ### Exact and tolerant location coincide without exotic whitespace -/

theorem not_pyIsSpace_of (c : Char) (h1 : isSpaceTab c = false)
    (h2 : otherWs c = false) : pyIsSpace c = false := by
  unfold otherWs at h2
  rw [h1] at h2
  cases hp : pyIsSpace c
  · rfl
  · rw [hp] at h2
    simp at h2

theorem takeWhile_py_nil (l : List Char) (h1 : l.takeWhile isSpaceTab = [])
    (h2 : l.takeWhile otherWs = []) : l.takeWhile pyIsSpace = [] := by
  cases l with
  | nil => rfl
  | cons c t =>
    rw [List.takeWhile_cons] at h1 h2 ⊢
    by_cases hst : isSpaceTab c = true
    · rw [if_pos hst] at h1
      exact absurd h1 (List.cons_ne_nil _ _)
    · by_cases how : otherWs c = true
      · rw [if_pos how] at h2
        exact absurd h2 (List.cons_ne_nil _ _)
      · have hp : pyIsSpace c = false :=
          not_pyIsSpace_of c (Bool.not_eq_true _ ▸ hst) (Bool.not_eq_true _ ▸ how)
        rw [if_neg (by rw [hp]; exact Bool.false_ne_true)]

theorem dropWhile_eq_self_of_takeWhile_nil (p : Char → Bool) (l : List Char)
    (h : l.takeWhile p = []) : l.dropWhile p = l := by
  cases l with
  | nil => rfl
  | cons c t =>
    rw [List.takeWhile_cons] at h
    by_cases hc : p c = true
    · rw [if_pos hc] at h
      exact absurd h (List.cons_ne_nil _ _)
    · rw [List.dropWhile_cons, if_neg hc]

/-- With no whitespace at either boundary, `str.strip()` is the identity. -/
theorem pyStrip_eq_self (l : List Char) (h1 : noLeadTrail isSpaceTab l)
    (h2 : noLeadTrail otherWs l) : pyStrip l = l := by
  obtain ⟨h1a, h1b⟩ := h1
  obtain ⟨h2a, h2b⟩ := h2
  unfold pyStrip
  rw [dropWhile_eq_self_of_takeWhile_nil _ _ (takeWhile_py_nil l h1a h2a)]
  rw [dropWhile_eq_self_of_takeWhile_nil _ _ (takeWhile_py_nil l.reverse h1b h2b)]
  exact List.reverse_reverse l

theorem contentMatches_exact_eq_tolerant (f s : StructuredLine)
    (hf : pyStrip f.content = f.content) (hs : pyStrip s.content = s.content) :
    contentMatches false f s = contentMatches true f s := by
  show decide (f.content = s.content) =
    decide (pyStrip f.content = pyStrip s.content)
  rw [hf, hs]

/-- C9 — For buffer and search lines that respect the tokenizer's invariant
(no space/tab at the content boundary) and carry no other whitespace
characters at the content boundary, strict and floating location agree: the
tolerant trim is a no-op. -/
theorem C9_modes_coincide (fl sl : List StructuredLine)
    (hfl : ∀ x ∈ fl, noLeadTrail isSpaceTab x.content ∧
      noLeadTrail otherWs x.content)
    (hsl : ∀ x ∈ sl, noLeadTrail isSpaceTab x.content ∧
      noLeadTrail otherWs x.content) :
    locate_hunk fl sl false = locate_hunk fl sl true := by
  have hgetD : ∀ (l : List StructuredLine),
      (∀ x ∈ l, noLeadTrail isSpaceTab x.content ∧ noLeadTrail otherWs x.content) →
      ∀ i, pyStrip ((l.getD i emptyLine).content) = (l.getD i emptyLine).content := by
    intro l hl i
    by_cases hi : i < l.length
    · rw [List.getD_eq_getElem _ _ hi]
      obtain ⟨ha, hb⟩ := hl _ (List.getElem_mem hi)
      exact pyStrip_eq_self _ ha hb
    · rw [List.getD_eq_default _ _ (Nat.le_of_not_lt hi)]
      rfl
  unfold locate_hunk
  by_cases h0 : sl.length = 0
  · rw [if_pos h0, if_pos h0]
  · rw [if_neg h0, if_neg h0]
    by_cases h1 : fl.length < sl.length
    · rw [if_pos h1, if_pos h1]
    · rw [if_neg h1, if_neg h1]
      apply List.filter_congr
      intro start _
      unfold windowMatches
      exact congrArg (List.all (List.range sl.length))
        (funext fun offset =>
          contentMatches_exact_eq_tolerant _ _
            (hgetD fl hfl (start + offset)) (hgetD sl hsl offset))

/-- Concrete instantiation on the one-line buffer `"a"` and search line `"a"`:
both modes locate `[0]`. -/
theorem C9_witness :
    locate_hunk [StructuredLine.ofLine ['a']] [StructuredLine.ofLine ['a']]
      false =
    locate_hunk [StructuredLine.ofLine ['a']] [StructuredLine.ofLine ['a']]
      true :=
  C9_modes_coincide [StructuredLine.ofLine ['a']] [StructuredLine.ofLine ['a']]
    (fun x hx => by
      rw [List.mem_singleton] at hx
      subst hx
      exact ⟨⟨by decide, by decide⟩, ⟨by decide, by decide⟩⟩)
    (fun x hx => by
      rw [List.mem_singleton] at hx
      subst hx
      exact ⟨⟨by decide, by decide⟩, ⟨by decide, by decide⟩⟩)

/-! ### Index safety of the application loop -/

theorem spliceOne_length (lines : List StructuredLine) (app : Application)
    (h1 : app.start ≤ lines.length) :
    (spliceOne lines app).length =
      app.start + app.replace_lines.length + (lines.length - app.stop) := by
  simp only [spliceOne, List.length_append, List.length_take, List.length_drop,
    buildNew_length]
  rw [Nat.min_eq_left h1]

/-- In a run of pairwise non-overlapping placements listed below a nonempty
head `a` in descending `start` order, every later placement ends at or before
`a.start`. -/
theorem pairwise_desc_bound (a : Application) (rest : List Application)
    (ha : a.start < a.stop)
    (hdesc : ∀ b ∈ rest, b.start ≤ a.start)
    (hnov : ∀ b ∈ rest, ¬ Overlaps a b) :
    ∀ b ∈ rest, b.stop ≤ a.start := by
  intro b hb
  by_contra hcon
  push_neg at hcon
  exact hnov b hb ⟨a.start, le_refl _, ha, hdesc b hb, hcon⟩

/-- C10 — Application-loop index safety: for placements with `start < end` and
`end ≤` buffer length, pairwise non-overlapping and processed in descending
`start` order, every splice's index preconditions hold on the current line
list — the guarded loop, whose inherited-indent read has no end-of-file
fallback, computes exactly the unguarded loop's result. -/
theorem C10_index_safety :
    ∀ (apps : List Application) (lines : List StructuredLine),
      (∀ a ∈ apps, a.start < a.stop ∧ a.stop ≤ lines.length) →
      apps.Pairwise (fun a b => b.start ≤ a.start) →
      apps.Pairwise (fun a b => ¬ Overlaps a b) →
      applyAllChecked lines apps = some (applyAll lines apps) := by
  intro apps
  induction apps with
  | nil => intro lines _ _ _; rfl
  | cons a rest ih =>
    intro lines hb hdesc hnov
    obtain ⟨ha1, ha2⟩ := hb a (List.mem_cons_self a rest)
    have hstartlt : a.start < lines.length := lt_of_lt_of_le ha1 ha2
    have hchecked : spliceOneChecked lines a = some (spliceOne lines a) := by
      unfold spliceOneChecked
      rw [if_pos ⟨hstartlt, ha2⟩]
      simp only [spliceOne]
      rw [if_pos hstartlt]
    have hlen2 : a.start ≤ (spliceOne lines a).length := by
      rw [spliceOne_length lines a (le_of_lt hstartlt)]
      omega
    rw [List.pairwise_cons] at hdesc hnov
    obtain ⟨hdesc1, hdesc2⟩ := hdesc
    obtain ⟨hnov1, hnov2⟩ := hnov
    have hbound : ∀ b ∈ rest, b.stop ≤ a.start :=
      pairwise_desc_bound a rest ha1 hdesc1 hnov1
    show applyAllChecked lines (a :: rest) = some (applyAll lines (a :: rest))
    unfold applyAllChecked
    rw [hchecked]
    exact ih (spliceOne lines a)
      (fun b hbm => ⟨(hb b (List.mem_cons_of_mem a hbm)).1,
        le_trans (hbound b hbm) hlen2⟩)
      hdesc2 hnov2

/-- Concrete instantiation: two unit placements processed in descending order
on a two-line buffer; the guarded loop agrees with the unguarded one. -/
theorem C10_witness :
    applyAllChecked [⟨[], ['a'], []⟩, ⟨[], ['b'], []⟩]
      [⟨1, 2, [⟨[], ['c'], []⟩]⟩, ⟨0, 1, [⟨[], ['d'], []⟩]⟩] =
    some (applyAll [⟨[], ['a'], []⟩, ⟨[], ['b'], []⟩]
      [⟨1, 2, [⟨[], ['c'], []⟩]⟩, ⟨0, 1, [⟨[], ['d'], []⟩]⟩]) :=
  C10_index_safety
    [⟨1, 2, [⟨[], ['c'], []⟩]⟩, ⟨0, 1, [⟨[], ['d'], []⟩]⟩]
    [⟨[], ['a'], []⟩, ⟨[], ['b'], []⟩]
    (by decide)
    (by decide)
    (by
      refine List.Pairwise.cons ?_ (List.pairwise_singleton _ _)
      intro b hbm
      rw [List.mem_singleton] at hbm
      subst hbm
      rintro ⟨k, hk1, hk2, hk3, hk4⟩
      dsimp only at hk1 hk2 hk3 hk4
      omega)

end TokenizingPatcher
